import Mathlib

/-!
Shallow embedding of `openoracle/openoracle.go` from vegaprotocol/oracles-relay.

Go byte slices are modelled as `List Nat` (each element intended `< 256`, with
wrap-around arithmetic written explicitly where Go byte arithmetic overflows).
Go strings are byte strings in Go, so they are modelled by the same type.
Go's multiple return values `(T, error)` are modelled by `GoResult`, which also
has a `panic` constructor for Go runtime panics (out-of-range slice index,
nil-pointer dereference), since those are observable process-fatal behaviours
distinct from returned `error` values.

The external go-ethereum primitives (Keccak-256, secp256k1 recoverable
signatures, address derivation) are not part of this repository; they are
modelled by the abstract interface `EthCrypto`, whose property fields state the
library's documented contract (a signature produced by `crypto.Sign` is 65
bytes `r||s||v` with raw recovery id `v ∈ {0,1}`, and `crypto.SigToPub`
recovers the signer's public key from it).  The ABI tuple codec for the fixed
schema `(string, uint64, string, uint256)` and the JSON decoding of
`OracleResponse` are likewise external library behaviour
(`github.com/ethereum/go-ethereum/accounts/abi`, `encoding/json`) and are
embedded concretely following those libraries' documented encodings.
-/

namespace OpenOracle

/-- Go byte slices: lists of byte values. -/
abbrev Bytes := List Nat

/-- Go strings are byte strings; same representation as `Bytes`. -/
abbrev GoStr := List Nat

/-- Byte string of a Lean string literal (all literals used are ASCII). -/
def strB (s : String) : GoStr := s.data.map Char.toNat

/-- Typed error values returned by the Go code (`error` return values). -/
inductive GoError where
  /-- `fmt.Errorf("got %v signatures, but have %v messages", ...)`. -/
  | lengthMismatch (nsigs nmsgs : Nat)
  /-- error from `hex.DecodeString`. -/
  | hexInvalid
  /-- error from `crypto.SigToPub`. -/
  | sigRecover
  /-- error from `abi.Arguments.UnpackIntoMap`. -/
  | abiDecode
  /-- error from `json.Unmarshal`. -/
  | jsonType
deriving DecidableEq, Repr

/-- Outcome of a Go computation: a value, a returned `error`, or a runtime
panic (process-fatal; not a returned value). -/
inductive GoResult (α : Type) where
  | ok (a : α)
  | err (e : GoError)
  | panic (msg : GoStr)
deriving DecidableEq, Repr

/-- Whether a `GoResult` is a successful return. -/
def GoResult.isOk {α : Type} : GoResult α → Bool
  | .ok _ => true
  | _ => false

/-- Go panic message for an out-of-range slice index. -/
def panicIndexMsg : GoStr := strB "runtime error: index out of range"

/-- Go panic message for dereferencing a nil pointer. -/
def panicNilMsg : GoStr := strB "runtime error: invalid memory address or nil pointer dereference"

/-! ### Hexadecimal encoding (`encoding/hex`) -/

/-- Lowercase hex digit character code, as produced by `hex.EncodeToString`. -/
def hexDigitCode (n : Nat) : Nat := if n < 10 then 48 + n else 87 + n

/-- `hex.EncodeToString`: two lowercase hex digits per byte. -/
def hexEncode : Bytes → GoStr
  | [] => []
  | b :: rest => hexDigitCode (b / 16) :: hexDigitCode (b % 16) :: hexEncode rest

/-- Value of one hex digit character (upper or lower case), as accepted by
`hex.DecodeString`. -/
def hexVal (c : Nat) : Option Nat :=
  if 48 ≤ c ∧ c ≤ 57 then some (c - 48)
  else if 97 ≤ c ∧ c ≤ 102 then some (c - 87)
  else if 65 ≤ c ∧ c ≤ 70 then some (c - 55)
  else none

/-- `hex.DecodeString`: fails on an odd-length input or an invalid digit. -/
def hexDecode : GoStr → Option Bytes
  | [] => some []
  | [_] => none
  | a :: b :: rest =>
    match hexVal a, hexVal b, hexDecode rest with
    | some x, some y, some tl => some ((16 * x + y) :: tl)
    | _, _, _ => none

/-- The `"0x" + hex.EncodeToString(bs)` strings built by `IntoOpenOracle`
(48 = code of the character 0, 120 = code of x). -/
def hex0x (bs : Bytes) : GoStr := 48 :: 120 :: hexEncode bs

/-- `strings.TrimPrefix(s, "0x")`: drop the prefix when present. -/
def trimPrefix0x (s : GoStr) : GoStr :=
  if s.take 2 = [48, 120] then s.drop 2 else s

/-! ### Big-endian words and decimal rendering -/

/-- Big-endian byte rendering of `n` on `w` bytes (truncating mod `256 ^ w`),
as in a 32-byte ABI word. -/
def natToBytesBE : Nat → Nat → Bytes
  | 0, _ => []
  | w + 1, n => natToBytesBE w (n / 256) ++ [n % 256]

/-- Big-endian value of a byte string. -/
def natFromBytesBE (l : Bytes) : Nat := l.foldl (fun a b => a * 256 + b) 0

/-- Decimal rendering of a natural number, as `fmt.Sprintf` of an unsigned
integer or a non-negative `big.Int`. -/
def decimalStr (n : Nat) : GoStr := (Nat.toDigits 10 n).map Char.toNat

/-! ### ABI tuple codec for the schema (string kind, uint64 timestamp, string key, uint256 value) -/

/-- `common.RightPadBytes` to the next multiple of 32 bytes. -/
def pad32 (b : Bytes) : Bytes := b ++ List.replicate ((32 - b.length % 32) % 32) 0

/-- ABI encoding of a dynamic `string` tail chunk: 32-byte length word
followed by the right-padded bytes. -/
def encStr (s : GoStr) : Bytes := natToBytesBE 32 s.length ++ pad32 s

/-- Wrap of a `big.Int` into the `uint256` range, as `math.U256Bytes`. -/
def u256 (v : Int) : Nat := (v.emod (2 ^ 256)).toNat

/-- `abi.Arguments.Pack` for the fixed schema
`(string kind, uint64 timestamp, string key, uint256 value)`: a 4-word head
(offset of kind, timestamp, offset of key, value) followed by the two string
tail chunks.  The first dynamic offset is the head size 128; the second is
128 plus the size of the first tail chunk. -/
def abiEncode (kind key : GoStr) (ts : Nat) (value : Int) : Bytes :=
  let kindEnc := encStr kind
  natToBytesBE 32 128 ++ natToBytesBE 32 (ts % 2 ^ 64) ++
    natToBytesBE 32 (128 + kindEnc.length) ++ natToBytesBE 32 (u256 value) ++
    kindEnc ++ encStr key

/-- Read the 32-byte word at offset `i`, with the bounds check performed by
go-ethereum's `toGoType`. -/
def readWord (b : Bytes) (i : Nat) : Option Bytes :=
  if i + 32 ≤ b.length then some ((b.drop i).take 32) else none

/-- Read a dynamic string at tail offset `off`, with the bounds checks
performed by go-ethereum's `lengthPrefixPointsTo`. -/
def readGoString (b : Bytes) (off : Nat) : Option GoStr :=
  if off + 32 ≤ b.length then
    let len := natFromBytesBE ((b.drop off).take 32)
    if off + 32 + len ≤ b.length then some ((b.drop (off + 32)).take len)
    else none
  else none

/-- `abi.Arguments.UnpackIntoMap` for the fixed schema: reads the 4 head
words, resolves the two string offsets, reads the `uint64` from the last 8
bytes of its word and the `uint256` from its full word.  Returns
`(kind, timestamp, key, value)`. -/
def abiDecode (b : Bytes) : Option (GoStr × Nat × GoStr × Nat) :=
  match readWord b 0, readWord b 32, readWord b 64, readWord b 96 with
  | some w0, some w1, some w2, some w3 =>
    match readGoString b (natFromBytesBE w0), readGoString b (natFromBytesBE w2) with
    | some kind, some key =>
      some (kind, natFromBytesBE (w1.drop 24), key, natFromBytesBE w3)
    | _, _ => none
  | _, _, _, _ => none

/-! ### Abstract model of the go-ethereum crypto primitives -/

/-- Abstract interface for the external go-ethereum primitives used by the
code (`crypto.Keccak256Hash`, `crypto.Sign`, `crypto.SigToPub`,
`crypto.PubkeyToAddress`).  Private and public keys are abstract values
(`Nat`); addresses are the hex strings produced by `.Hex()`.  The property
fields state the library's documented contract: `crypto.Sign` produces a
65-byte signature `r(32) || s(32) || v(1)` whose bytes are bytes and whose
raw recovery id `v` is 0 or 1, and `crypto.SigToPub` applied to that exact
signature and the same digest recovers the signer's public key. -/
structure EthCrypto where
  keccak256 : Bytes → Bytes
  sign : Bytes → Nat → Bytes
  sigToPub : Bytes → Bytes → Option Nat
  pubToAddress : Nat → GoStr
  privToPub : Nat → Nat
  sign_length : ∀ h k, (sign h k).length = 65
  sign_v : ∀ h k, (sign h k).getD 64 0 = 0 ∨ (sign h k).getD 64 0 = 1
  sign_bytes : ∀ h k, ∀ b ∈ sign h k, b < 256
  recover_sign : ∀ h k, sigToPub h (sign h k) = some (privToPub k)

/-- `accounts.TextHash(data)`: Keccak-256 of
`"\x19Ethereum Signed Message:\n" + itoa(len(data)) + data`. -/
def textHash (c : EthCrypto) (data : Bytes) : Bytes :=
  c.keccak256 (strB "\x19Ethereum Signed Message:\n" ++ decimalStr data.length ++ data)

/-- `signMessage` from openoracle.go: Keccak-256 the message, apply the
signed-message prefix hash, sign, then remap the recovery id by
`signature[64] = signature[64] + 27` (Go byte arithmetic wraps mod 256).
The library error path of `crypto.Sign` is not modelled (the abstract `sign`
is total), so the function returns the signature bytes directly. -/
def signMessage (c : EthCrypto) (msgBytes : Bytes) (privKey : Nat) : Bytes :=
  let hashBytesPadded := textHash c (c.keccak256 msgBytes)
  let signature := c.sign hashBytesPadded privKey
  signature.set 64 ((signature.getD 64 0 + 27) % 256)

/-! ### Data model -/

/-- The open oracle payload (`OracleResponse` in openoracle.go).  The Go
`map[string]string` field `Prices` is modelled as an association list. -/
structure OracleResponse where
  Timestamp : GoStr
  Messages : List GoStr
  Signatures : List GoStr
  Prices : List (GoStr × GoStr)
deriving DecidableEq, Repr

/-- An oracle price input (`OraclePrice` in openoracle.go); `Timestamp` is a
Go `uint64`. -/
structure OraclePrice where
  Asset : GoStr
  Price : GoStr
  Timestamp : Nat
deriving DecidableEq, Repr

/-- A request to build an open oracle payload (`OracleRequest`). -/
structure OracleRequest where
  Timestamp : Nat
  Prices : List OraclePrice
deriving DecidableEq, Repr

/-! ### Building a payload (`IntoOpenOracle`) -/

/-- Value of a nonempty all-decimal digit string. -/
def digitsVal (ds : List Nat) : Option Nat :=
  match ds with
  | [] => none
  | _ =>
    if ds.all (fun c => 48 ≤ c ∧ c ≤ 57) then
      some (ds.foldl (fun a c => 10 * a + (c - 48)) 0)
    else none

/-- `big.NewInt(0).SetString(s, 10)`: an optional sign (43 = code of +,
45 = code of -) followed by a nonempty run of decimal digits; `none` models
the `nil` result of a failed parse. -/
def parseDec (s : GoStr) : Option Int :=
  match s with
  | 43 :: rest => (digitsVal rest).map Int.ofNat
  | 45 :: rest => (digitsVal rest).map (fun n => -(n : Int))
  | _ => (digitsVal s).map Int.ofNat

/-- The constant kind string `"prices"` passed by `IntoOpenOracle`. -/
def pricesKind : GoStr := strB "prices"

/-- `makeMessage` from openoracle.go, specialised to the fixed argument
schema (the `abi.NewType` calls always succeed for these type strings).
A `nil` `*big.Int` value (failed price parse) reaches
`math.U256Bytes(new(big.Int).Set(value))` inside `abi.Arguments.Pack` and
dereferences the nil pointer: a Go runtime panic, not a returned error. -/
def makeMessage (kind key : GoStr) (timestamp : Nat) (value : Option Int) :
    GoResult Bytes :=
  match value with
  | none => .panic panicNilMsg
  | some v => .ok (abiEncode kind key timestamp v)

/-- Loop body of `IntoOpenOracle`: per price, parse the decimal price
(ignoring the parse error, as the source does with `price, _ := ...`), build
the message, sign it, and append the `0x`-hex strings of both. -/
def intoLoop (c : EthCrypto) (privKey : Nat) :
    List OraclePrice → List GoStr → List GoStr → GoResult (List GoStr × List GoStr)
  | [], msgs, sigs => .ok (msgs, sigs)
  | p :: rest, msgs, sigs =>
    match makeMessage pricesKind p.Asset p.Timestamp (parseDec p.Price) with
    | .panic m => .panic m
    | .err e => .err e
    | .ok msgBytes =>
      let sigBytes := signMessage c msgBytes privKey
      intoLoop c privKey rest (msgs ++ [hex0x msgBytes]) (sigs ++ [hex0x sigBytes])

/-- `IntoOpenOracle` from openoracle.go. -/
def IntoOpenOracle (c : EthCrypto) (oreq : OracleRequest) (privKey : Nat) :
    GoResult OracleResponse :=
  match intoLoop c privKey oreq.Prices [] [] with
  | .ok (msgs, sigs) => .ok ⟨decimalStr oreq.Timestamp, msgs, sigs, []⟩
  | .err e => .err e
  | .panic m => .panic m

/-! ### Verification (`Verify`) -/

/-- Signature normalisation, lines 233–237 of openoracle.go: if the decoded
signature is longer than 65 bytes, move its last byte into position 64 and
truncate to 65 bytes; then `sigBytes[64] = sigBytes[64] - 27` (Go byte
subtraction wraps, hence `+ 229 mod 256`).  The index-64 write is performed
without a length check: on a signature shorter than 65 bytes it is an
out-of-range slice index, i.e. a Go runtime panic. -/
def normalizeSig (sigBytes : Bytes) : GoResult Bytes :=
  let s := if 65 < sigBytes.length
    then (sigBytes.set 64 (sigBytes.getLastD 0)).take 65
    else sigBytes
  if 64 < s.length then .ok (s.set 64 ((s.getD 64 0 + 229) % 256))
  else .panic panicIndexMsg

/-- Per-entry signer recovery, lines 221–244 of openoracle.go: hex-decode the
signature and message strings (tolerating a `0x` prefix), recompute the
prefixed digest, normalise the signature, recover the public key and derive
the signer's address. -/
def recoverEntryAddr (c : EthCrypto) (sigStr msgStr : GoStr) : GoResult GoStr :=
  match hexDecode (trimPrefix0x sigStr) with
  | none => .err .hexInvalid
  | some sigBytes =>
    match hexDecode (trimPrefix0x msgStr) with
    | none => .err .hexInvalid
    | some msgBytes =>
      let hashDecodedPadded := textHash c (c.keccak256 msgBytes)
      match normalizeSig sigBytes with
      | .err e => .err e
      | .panic m => .panic m
      | .ok sb =>
        match c.sigToPub hashDecodedPadded sb with
        | none => .err .sigRecover
        | some pub => .ok (c.pubToAddress pub)

/-- Insertion into the `pubkeys` set (a Go `map[string]struct{}`), modelled
as an insertion-ordered duplicate-free list; Go's map iteration order is
unspecified, only the membership matters to the claims. -/
def insertAddr (pks : List GoStr) (a : GoStr) : List GoStr :=
  if a ∈ pks then pks else pks ++ [a]

/-- Assignment `m[k] = v` on a Go `map[string]string` modelled as an
association list: replace the existing binding or append a new one. -/
def mapSet : List (GoStr × GoStr) → GoStr → GoStr → List (GoStr × GoStr)
  | [], k, v => [(k, v)]
  | (k', v') :: rest, k, v =>
    if k' = k then (k, v) :: rest else (k', v') :: mapSet rest k v

/-- Lookup in the association-list model of a Go map. -/
def mapGet : List (GoStr × GoStr) → GoStr → Option GoStr
  | [], _ => none
  | (k', v) :: rest, k => if k' = k then some v else mapGet rest k

/-- The map key `fmt.Sprintf("%v.%v.value", kind, key)` (46 = code of the
dot character). -/
def valMapKey (kind key : GoStr) : GoStr := kind ++ 46 :: key ++ strB ".value"

/-- The map key `fmt.Sprintf("%v.%v.timestamp", kind, key)`. -/
def tsMapKey (kind key : GoStr) : GoStr := kind ++ 46 :: key ++ strB ".timestamp"

/-- Body of the `Verify` loop for one `(message, signature)` pair: recover
the signer address, insert it into the address set, ABI-decode the message
and record the two key/value entries. -/
def verifyStep (c : EthCrypto) (msgStr sigStr : GoStr)
    (acc : List GoStr × List (GoStr × GoStr)) :
    GoResult (List GoStr × List (GoStr × GoStr)) :=
  match recoverEntryAddr c sigStr msgStr with
  | .err e => .err e
  | .panic m => .panic m
  | .ok addrHex =>
    let pks := insertAddr acc.1 addrHex
    match hexDecode (trimPrefix0x msgStr) with
    | none => .err .hexInvalid
    | some msgBytes =>
      match abiDecode msgBytes with
      | none => .err .abiDecode
      | some (kind, ts, key, value) =>
        .ok (pks,
          mapSet (mapSet acc.2 (valMapKey kind key) (decimalStr value))
            (tsMapKey kind key) (decimalStr ts))

/-- The `Verify` loop over the paired messages and signatures, threading the
accumulated address set and key/value map and aborting on the first
failure. -/
def verifyLoop (c : EthCrypto) :
    List (GoStr × GoStr) → (List GoStr × List (GoStr × GoStr)) →
    GoResult (List GoStr × List (GoStr × GoStr))
  | [], acc => .ok acc
  | (m, s) :: rest, acc =>
    match verifyStep c m s acc with
    | .err e => .err e
    | .panic msg => .panic msg
    | .ok acc' => verifyLoop c rest acc'

/-- `Verify` from openoracle.go: the `abi.NewType` calls always succeed, then
the message/signature counts are compared before any per-entry work, and the
loop runs over the paired entries (the Go loop indexes both slices by `i`
with equal lengths, which the zip reproduces).  On success the address set
and the key/value map are returned; on any failure the Go code returns
`nil, nil, err`, so the error constructors carry no partial result. -/
def Verify (c : EthCrypto) (oresp : OracleResponse) :
    GoResult (List GoStr × List (GoStr × GoStr)) :=
  if oresp.Messages.length ≠ oresp.Signatures.length then
    .err (.lengthMismatch oresp.Signatures.length oresp.Messages.length)
  else
    verifyLoop c (oresp.Messages.zip oresp.Signatures) ([], [])

/-! ### JSON decoding (`Unmarshal`, `UnmarshalVerify`)

The raw payload handed to `json.Unmarshal` is modelled at the level of the
parsed JSON value; the byte-level JSON grammar belongs to `encoding/json`.
The decoding into `OracleResponse` follows `encoding/json`'s documented
semantics for this struct: a top-level JSON `null` leaves the zero struct, a
top-level object assigns each binding in order to the struct field whose tag
matches case-insensitively (unknown keys are ignored, absent fields keep
their zero values), a `null` field value leaves/zeroes the field, and a value
of the wrong type for a field is an `UnmarshalTypeError` (returned by
`json.Unmarshal` and hence by `Unmarshal`). -/

/-- A parsed JSON value. -/
inductive Json where
  | null
  | bool (b : Bool)
  | num (n : Int)
  | str (s : GoStr)
  | arr (xs : List Json)
  | obj (fields : List (GoStr × Json))

/-- ASCII case folding of one byte, modelling Go's case-insensitive field
name matching for the ASCII field tags of `OracleResponse`. -/
def foldByte (b : Nat) : Nat := if 65 ≤ b ∧ b ≤ 90 then b + 32 else b

/-- Case-insensitive comparison of a JSON key against a field tag. -/
def keyMatches (k tag : GoStr) : Bool := k.map foldByte = tag.map foldByte

/-- Decoding of one JSON value into a Go `string` (a `null` leaves the zero
value). -/
def jsonToGoStr : Json → Option GoStr
  | .str s => some s
  | .null => some []
  | _ => none

/-- Element-wise decoding of a JSON array of strings. -/
def jsonStrElems : List Json → Option (List GoStr)
  | [] => some []
  | x :: xs =>
    match jsonToGoStr x, jsonStrElems xs with
    | some s, some rest => some (s :: rest)
    | _, _ => none

/-- Decoding of one JSON value into a Go `[]string`. -/
def jsonToGoStrList : Json → Option (List GoStr)
  | .arr xs => jsonStrElems xs
  | .null => some []
  | _ => none

/-- Binding-wise decoding of a JSON object of strings. -/
def jsonStrPairs : List (GoStr × Json) → Option (List (GoStr × GoStr))
  | [] => some []
  | kv :: fs =>
    match jsonToGoStr kv.2, jsonStrPairs fs with
    | some v, some rest => some ((kv.1, v) :: rest)
    | _, _ => none

/-- Decoding of one JSON value into a Go `map[string]string` (modelled as an
association list). -/
def jsonToGoStrMap : Json → Option (List (GoStr × GoStr))
  | .obj fs => jsonStrPairs fs
  | .null => some []
  | _ => none

/-- The zero value of `OracleResponse`, the starting point of
`json.Unmarshal` into a fresh struct. -/
def zeroResp : OracleResponse := ⟨[], [], [], []⟩

/-- Assignment of one JSON object binding to the matching struct field of
`OracleResponse` (unknown keys are ignored). -/
def assignField (r : OracleResponse) (k : GoStr) (v : Json) :
    Option OracleResponse :=
  if keyMatches k (strB "timestamp") then
    (jsonToGoStr v).map (fun s => { r with Timestamp := s })
  else if keyMatches k (strB "messages") then
    (jsonToGoStrList v).map (fun xs => { r with Messages := xs })
  else if keyMatches k (strB "signatures") then
    (jsonToGoStrList v).map (fun xs => { r with Signatures := xs })
  else if keyMatches k (strB "prices") then
    (jsonToGoStrMap v).map (fun m => { r with Prices := m })
  else some r

/-- Sequential assignment of the bindings of a JSON object. -/
def unmarshalFields : List (GoStr × Json) → OracleResponse → Option OracleResponse
  | [], r => some r
  | (k, v) :: rest, r =>
    match assignField r k v with
    | none => none
    | some r' => unmarshalFields rest r'

/-- `Unmarshal` from openoracle.go: `json.Unmarshal` of the payload into a
fresh `OracleResponse`. -/
def Unmarshal (payload : Json) : GoResult OracleResponse :=
  match payload with
  | .null => .ok zeroResp
  | .obj fs =>
    match unmarshalFields fs zeroResp with
    | some r => .ok r
    | none => .err .jsonType
  | _ => .err .jsonType

/-- Whether a JSON value is acceptable for a Go `string` target. -/
def jsonStrOk : Json → Bool
  | .str _ => true
  | .null => true
  | _ => false

/-- Whether a JSON value is acceptable for a Go `[]string` target. -/
def strListOk : Json → Bool
  | .arr xs => xs.all jsonStrOk
  | .null => true
  | _ => false

/-- Whether a JSON value is acceptable for a Go `map[string]string` target. -/
def strMapOk : Json → Bool
  | .obj fs => fs.all (fun kv => jsonStrOk kv.2)
  | .null => true
  | _ => false

/-- Schema validity of a payload for one `OracleResponse` field: the value
must have the field's type or be `null`; unknown keys are unconstrained. -/
def jsonFieldOk (k : GoStr) (v : Json) : Bool :=
  if keyMatches k (strB "timestamp") then jsonStrOk v
  else if keyMatches k (strB "messages") then strListOk v
  else if keyMatches k (strB "signatures") then strListOk v
  else if keyMatches k (strB "prices") then strMapOk v
  else true

/-- Schema validity of a whole payload for `OracleResponse`: `null` or an
object all of whose bindings are field-valid. -/
def schemaOk (j : Json) : Bool :=
  match j with
  | .null => true
  | .obj fs => fs.all (fun kv => jsonFieldOk kv.1 kv.2)
  | _ => false

/-- Result of `UnmarshalVerify`, which returns the Go pair
`(*OracleResponse, error)` unless `Verify` panics: `ret oresp err` models
`return oresp, err` with a possibly-nil pointer and a possibly-nil error. -/
inductive UVResult where
  | panic (msg : GoStr)
  | ret (oresp : Option OracleResponse) (err : Option GoError)
deriving DecidableEq, Repr

/-- `UnmarshalVerify` from openoracle.go: unmarshal the payload, then run
`Verify`.  The `address` parameter is accepted but never read (the
address-equality check in the source is commented out), and the address set
and key/value map produced by `Verify` are printed with `fmt.Printf` and
dropped: the function returns only the parsed response and `Verify`'s
error. -/
def UnmarshalVerify (c : EthCrypto) (payload : Json) (address : GoStr) : UVResult :=
  match Unmarshal payload with
  | .err e => .ret none (some e)
  | .panic m => .panic m
  | .ok oresp =>
    match Verify c oresp with
    | .panic m => .panic m
    | .err e => .ret (some oresp) (some e)
    | .ok _ => .ret (some oresp) none

/-! ### A concrete instance of the crypto interface

`toyCrypto` is a small executable model satisfying the `EthCrypto` contract,
used to evaluate the embedded code on concrete inputs: a signature stores the
(truncated) private key big-endian in its first 64 bytes with raw recovery id
0, and recovery reads it back when the signature has the right shape. -/

/-- Concrete executable crypto model.  The signer's public key is the value
read back from the first 64 signature bytes, so the recovery contract holds
by construction. -/
def toyCrypto : EthCrypto where
  keccak256 := fun _ => List.replicate 32 0
  sign := fun _ k => natToBytesBE 64 k ++ [0]
  sigToPub := fun _ s =>
    if s.length = 65 ∧ s.getLastD 0 ≤ 3 then some (natFromBytesBE (s.take 64))
    else none
  pubToAddress := fun p => strB "0x" ++ decimalStr p
  privToPub := fun k => natFromBytesBE (natToBytesBE 64 k)
  sign_length := by
    intro h k
    have hl : ∀ (w n : Nat), (natToBytesBE w n).length = w := by
      intro w
      induction w with
      | zero => intro n; rfl
      | succ w ih => intro n; simp [natToBytesBE, ih]
    simp [hl]
  sign_v := by
    intro h k
    left
    have hl : ∀ (w n : Nat), (natToBytesBE w n).length = w := by
      intro w
      induction w with
      | zero => intro n; rfl
      | succ w ih => intro n; simp [natToBytesBE, ih]
    simp [List.getD, hl 64 k]
  sign_bytes := by
    intro h k b hb
    have hlt : ∀ (w n : Nat), ∀ b ∈ natToBytesBE w n, b < 256 := by
      intro w
      induction w with
      | zero => simp [natToBytesBE]
      | succ w ih =>
        intro n b hb
        simp only [natToBytesBE, List.mem_append, List.mem_singleton] at hb
        rcases hb with hb | hb
        · exact ih _ b hb
        · simpa [hb] using Nat.mod_lt n (by norm_num)
    simp only [List.mem_append, List.mem_singleton] at hb
    rcases hb with hb | hb
    · exact hlt 64 k b hb
    · simp [hb]
  recover_sign := by
    intro h k
    have hl : ∀ (w n : Nat), (natToBytesBE w n).length = w := by
      intro w
      induction w with
      | zero => intro n; rfl
      | succ w ih => intro n; simp [natToBytesBE, ih]
    have hlen : (natToBytesBE 64 k).length = 64 := hl 64 k
    have hlast : (natToBytesBE 64 k ++ [0]).getLastD 0 = 0 := by
      simp [List.getLastD_concat]
    have htake : (natToBytesBE 64 k ++ [0]).take 64 = natToBytesBE 64 k := by
      simpa [hlen] using List.take_left (natToBytesBE 64 k) [0]
    simp only [hlast, htake]
    rw [if_pos (by simp [hlen])]

/-! ### Derived observation functions and concrete inputs -/

/-- Decoded tuple of one message string: hex decoding followed by the ABI
decode, as performed inside the `Verify` loop. -/
def tupleOf (msgStr : GoStr) : Option (GoStr × Nat × GoStr × Nat) :=
  (hexDecode (trimPrefix0x msgStr)).bind abiDecode

/-- Update of the key/value map performed by the `Verify` loop for one
decoded tuple (value entry first, then timestamp entry, as in the source). -/
def kvUpd (kv : List (GoStr × GoStr)) (t : GoStr × Nat × GoStr × Nat) :
    List (GoStr × GoStr) :=
  mapSet (mapSet kv (valMapKey t.1 t.2.2.1) (decimalStr t.2.2.2))
    (tsMapKey t.1 t.2.2.1) (decimalStr t.2.1)

/-- Derived map-key stem `"{kind}.{key}"` of a decoded tuple. -/
def joinedKey (t : GoStr × Nat × GoStr × Nat) : GoStr := t.1 ++ 46 :: t.2.2.1

/-- Default tuple for `List.getD`. -/
def dTuple : GoStr × Nat × GoStr × Nat := ([], 0, [], 0)

/-- Per-price pair of message and signature hex strings built by the
`IntoOpenOracle` loop, `none` when the price string does not parse. -/
def buildPair (c : EthCrypto) (privKey : Nat) (p : OraclePrice) :
    Option (GoStr × GoStr) :=
  (parseDec p.Price).map (fun v =>
    let mb := abiEncode pricesKind p.Asset p.Timestamp v
    (hex0x mb, hex0x (signMessage c mb privKey)))

/-- All per-price pairs, `none` if any price fails to parse. -/
def buildPairs (c : EthCrypto) (privKey : Nat) :
    List OraclePrice → Option (List (GoStr × GoStr))
  | [] => some []
  | p :: ps =>
    match buildPair c privKey p, buildPairs c privKey ps with
    | some pr, some prs => some (pr :: prs)
    | _, _ => none

/-- A `"0x"`-prefixed string of lowercase hexadecimal digits. -/
def isHex0xLower (s : GoStr) : Bool :=
  match s with
  | 48 :: 120 :: rest => rest.all (fun c => (48 ≤ c ∧ c ≤ 57) ∨ (97 ≤ c ∧ c ≤ 102))
  | _ => false

/-- A 65-byte signature string whose recovery-id byte is 27 (raw id 0 after
the Verifier's subtraction); recoverable under `toyCrypto`. -/
def dummySigStr : GoStr := hex0x (natToBytesBE 64 0 ++ [27])

/-- A response whose only signature hex-decodes to a single byte. -/
def respShortSig : OracleResponse := ⟨strB "1", [hex0x [1]], [hex0x [0]], []⟩

/-- Message bytes for kind `p`, key `a`, timestamp 1, value 5. -/
def msgPA : Bytes := abiEncode (strB "p") (strB "a") 1 5

/-- A response whose first entry verifies under `toyCrypto` and whose second
message string is not valid hexadecimal. -/
def respBadHex : OracleResponse :=
  ⟨strB "1", [hex0x msgPA, strB "0xzz"], [dummySigStr, dummySigStr], []⟩

/-- JSON payload carrying one entry that verifies under `toyCrypto`. -/
def payloadPA : Json :=
  .obj [(strB "timestamp", .str (strB "1")),
        (strB "messages", .arr [.str (hex0x msgPA)]),
        (strB "signatures", .arr [.str dummySigStr])]

/-- The `OracleResponse` parsed from `payloadPA`. -/
def parsedPA : OracleResponse := ⟨strB "1", [hex0x msgPA], [dummySigStr], []⟩

/-- Two messages with distinct `(kind, key)` pairs — `(a.b, c)` and
`(a, b.c)` — whose derived map key strings nevertheless coincide. -/
def respDotCollision : OracleResponse :=
  ⟨strB "1",
   [hex0x (abiEncode (strB "a.b") (strB "c") 1 7),
    hex0x (abiEncode (strB "a") (strB "b.c") 2 9)],
   [dummySigStr, dummySigStr], []⟩

/-- Two messages with distinct derived key strings `p.a` and `p.b`. -/
def respTwoKeys : OracleResponse :=
  ⟨strB "1",
   [hex0x (abiEncode (strB "p") (strB "a") 1 5),
    hex0x (abiEncode (strB "p") (strB "b") 2 6)],
   [dummySigStr, dummySigStr], []⟩

/-- The decoded tuples of `respTwoKeys`. -/
def tuplesTwoKeys : List (GoStr × Nat × GoStr × Nat) :=
  [(strB "p", 1, strB "a", 5), (strB "p", 2, strB "b", 6)]

/-- A request with one well-formed price. -/
def reqGood : OracleRequest := ⟨1, [⟨strB "BTC", strB "5", 1⟩]⟩

/-- The response produced for `reqGood` under `toyCrypto` with private
key 3. -/
def respGood : OracleResponse :=
  ⟨decimalStr 1, [hex0x (abiEncode pricesKind (strB "BTC") 1 5)],
   [hex0x (signMessage toyCrypto (abiEncode pricesKind (strB "BTC") 1 5) 3)], []⟩

/-- A request containing a price string that does not parse as an integer. -/
def reqBadPrice : OracleRequest := ⟨1, [⟨strB "BTC", strB "abc", 1⟩]⟩

/-- Default price for `List.getD`. -/
def dPrice : OraclePrice := ⟨[], [], 0⟩

/-- Default message/signature pair for `List.getD`. -/
def dPair : GoStr × GoStr := ([], [])

/-! ## Supporting lemmas -/

/-- Folding the big-endian value starting from an arbitrary accumulator. -/
theorem natFromBytesBE_foldl (l : Bytes) (a : Nat) :
    l.foldl (fun x b => x * 256 + b) a = a * 256 ^ l.length + natFromBytesBE l := by
  induction l generalizing a with
  | nil => simp [natFromBytesBE]
  | cons b l ih =>
    show l.foldl _ (a * 256 + b) = _
    rw [ih]
    have hb : natFromBytesBE (b :: l) = b * 256 ^ l.length + natFromBytesBE l := by
      show l.foldl _ (0 * 256 + b) = _
      rw [ih]
      ring_nf
    rw [hb]
    simp only [List.length_cons, pow_succ]
    ring

/-- Big-endian value of a concatenation. -/
theorem natFromBytesBE_append (l1 l2 : Bytes) :
    natFromBytesBE (l1 ++ l2) =
      natFromBytesBE l1 * 256 ^ l2.length + natFromBytesBE l2 := by
  show (l1 ++ l2).foldl _ 0 = _
  rw [List.foldl_append, natFromBytesBE_foldl]
  rfl

/-- Reading back a big-endian rendering recovers the value modulo the word
range. -/
theorem natFromBytesBE_toBE (w n : Nat) :
    natFromBytesBE (natToBytesBE w n) = n % 256 ^ w := by
  induction w generalizing n with
  | zero => simp [natToBytesBE, natFromBytesBE, Nat.mod_one]
  | succ w ih =>
    rw [natToBytesBE, natFromBytesBE_append, ih]
    have h1 : natFromBytesBE [n % 256] = n % 256 := by
      simp [natFromBytesBE]
    have h2 : (256 : Nat) ^ (w + 1) = 256 * 256 ^ w := by ring
    simp only [List.length_singleton, pow_one, h1, h2, Nat.mod_mul]
    ring

/-- Bytes produced by `natToBytesBE` are genuine byte values. -/
theorem natToBytesBE_lt (w n : Nat) : ∀ b ∈ natToBytesBE w n, b < 256 := by
  induction w generalizing n with
  | zero => simp [natToBytesBE]
  | succ w ih =>
    intro b hb
    simp only [natToBytesBE, List.mem_append, List.mem_singleton] at hb
    rcases hb with hb | hb
    · exact ih _ b hb
    · simpa [hb] using Nat.mod_lt n (by norm_num)

/-- Length of a `natToBytesBE` rendering. -/
theorem natToBytesBE_length (w n : Nat) : (natToBytesBE w n).length = w := by
  induction w generalizing n with
  | zero => rfl
  | succ w ih => simp [natToBytesBE, ih]

/-- Splitting a big-endian rendering into its high and low parts. -/
theorem natToBytesBE_add (a b n : Nat) :
    natToBytesBE (a + b) n = natToBytesBE a (n / 256 ^ b) ++ natToBytesBE b n := by
  induction b generalizing n with
  | zero => simp [natToBytesBE]
  | succ b ih =>
    have hsplit : a + (b + 1) = (a + b) + 1 := rfl
    rw [hsplit, natToBytesBE, ih (n / 256), natToBytesBE]
    rw [Nat.div_div_eq_div_mul]
    have h2 : (256 : Nat) ^ (b + 1) = 256 * 256 ^ b := by ring
    simp [h2, List.append_assoc, Nat.mul_comm]

/-- Decoding a hex digit produced by the lowercase encoder. -/
theorem hexVal_hexDigitCode (x : Nat) (h : x < 16) :
    hexVal (hexDigitCode x) = some x := by
  interval_cases x <;> rfl

/-- Hex round-trip: decoding an encoded byte string gives it back. -/
theorem hexDecode_hexEncode (bs : Bytes) (h : ∀ b ∈ bs, b < 256) :
    hexDecode (hexEncode bs) = some bs := by
  induction bs with
  | nil => rfl
  | cons b rest ih =>
    have hb : b < 256 := h b (by simp)
    have h1 : b / 16 < 16 := by omega
    have h2 : b % 16 < 16 := Nat.mod_lt _ (by norm_num)
    show hexDecode (hexDigitCode (b / 16) :: hexDigitCode (b % 16) :: hexEncode rest) = _
    simp only [hexDecode, hexVal_hexDigitCode _ h1, hexVal_hexDigitCode _ h2,
      ih (fun x hx => h x (by simp [hx]))]
    simp [Nat.div_add_mod]

/-- Trimming the `0x` prefix of a `hex0x` string. -/
theorem trimPrefix0x_hex0x (bs : Bytes) : trimPrefix0x (hex0x bs) = hexEncode bs := by
  simp [trimPrefix0x, hex0x]

/-- `getD` after `set` at the same in-range index. -/
theorem getD_set_self (l : List Nat) (n : Nat) (a d : Nat) (h : n < l.length) :
    (l.set n a).getD n d = a := by
  simp [List.getD, List.getElem?_set_self h]

/-- Writing back the element already stored at an in-range index. -/
theorem set_getD_self (l : List Nat) (n : Nat) (d : Nat) (h : n < l.length) :
    l.set n (l.getD n d) = l := by
  induction l generalizing n with
  | nil => simp at h
  | cons x xs ih =>
    cases n with
    | zero => simp [List.getD]
    | succ n =>
      simp only [List.length_cons, Nat.succ_lt_succ_iff] at h
      show x :: xs.set n ((x :: xs).getD (n + 1) d) = x :: xs
      have hg : (x :: xs).getD (n + 1) d = xs.getD n d := by
        simp [List.getD]
      rw [hg, ih n h]

/-- Bytes of a produced signature (after the `+ 27` remap) are bytes. -/
theorem signMessage_bytes (c : EthCrypto) (m : Bytes) (k : Nat) :
    ∀ b ∈ signMessage c m k, b < 256 := by
  intro b hb
  unfold signMessage at hb
  rcases List.mem_or_eq_of_mem_set hb with hb | hb
  · exact c.sign_bytes _ _ b hb
  · subst hb
    exact Nat.mod_lt _ (by norm_num)

/-- Normalisation of an exactly-65-byte signature: no truncation, only the
`- 27` byte subtraction at index 64. -/
theorem normalizeSig_of_length_65 (s : Bytes) (h : s.length = 65) :
    normalizeSig s = .ok (s.set 64 ((s.getD 64 0 + 229) % 256)) := by
  have h1 : (if 65 < s.length then (s.set 64 (s.getLastD 0)).take 65 else s) = s := by
    rw [if_neg (by omega)]
  simp only [normalizeSig, h1]
  rw [if_pos (show 64 < s.length by omega)]

/-- Normalising the `+ 27` remap of a 65-byte raw signature with recovery
id 0 or 1 recovers the raw signature exactly. -/
theorem normalizeSig_remap (l : Bytes) (hlen : l.length = 65)
    (hv : l.getD 64 0 = 0 ∨ l.getD 64 0 = 1) :
    normalizeSig (l.set 64 ((l.getD 64 0 + 27) % 256)) = .ok l := by
  have hlen' : (l.set 64 ((l.getD 64 0 + 27) % 256)).length = 65 := by
    simp [hlen]
  rw [normalizeSig_of_length_65 _ hlen']
  have hgd : (l.set 64 ((l.getD 64 0 + 27) % 256)).getD 64 0 =
      (l.getD 64 0 + 27) % 256 := getD_set_self l 64 _ 0 (by omega)
  rw [hgd, List.set_set]
  have hval : ((l.getD 64 0 + 27) % 256 + 229) % 256 = l.getD 64 0 := by
    rcases hv with hv | hv <;> rw [hv]
  rw [hval, set_getD_self l 64 0 (by omega)]

/-- Normalising a produced signature undoes the `+ 27` remap exactly. -/
theorem normalizeSig_signMessage (c : EthCrypto) (m : Bytes) (k : Nat) :
    normalizeSig (signMessage c m k) =
      .ok (c.sign (textHash c (c.keccak256 m)) k) := by
  have h := normalizeSig_remap (c.sign (textHash c (c.keccak256 m)) k)
    (c.sign_length _ _) (c.sign_v _ _)
  simpa [signMessage] using h

/-! ## Claim C1 -/

/-- C1: for every message byte string and private key, signing
(`signMessage`: Keccak-256 digest, signed-message prefix, recoverable
signature with `v` = raw id + 27) and then running the Verifier's per-entry
recovery (`recoverEntryAddr`: hex decode, subtract 27 from byte 64, recover
the public key, derive the address) on the resulting pair yields exactly the
address derived from the key's public key, with no recovery error. -/
theorem sign_then_verify_recovers_signer (c : EthCrypto) (k : Nat) (m : Bytes)
    (hm : ∀ b ∈ m, b < 256) :
    recoverEntryAddr c (hex0x (signMessage c m k)) (hex0x m) =
      .ok (c.pubToAddress (c.privToPub k)) := by
  simp only [recoverEntryAddr, trimPrefix0x_hex0x,
    hexDecode_hexEncode _ (signMessage_bytes c m k), hexDecode_hexEncode _ hm,
    normalizeSig_signMessage, c.recover_sign]

/-- Witness for C1: concrete message `[1, 2, 3]` and key 5 under
`toyCrypto`. -/
theorem sign_then_verify_recovers_signer_witness :
    recoverEntryAddr toyCrypto (hex0x (signMessage toyCrypto [1, 2, 3] 5))
        (hex0x [1, 2, 3]) =
      .ok (toyCrypto.pubToAddress (toyCrypto.privToPub 5)) :=
  sign_then_verify_recovers_signer toyCrypto 5 [1, 2, 3] (by decide)

/-! ## Claim C2 -/

/-- Length of an encoded string chunk. -/
theorem encStr_length (s : GoStr) :
    (encStr s).length = 32 + (s.length + (32 - s.length % 32) % 32) := by
  simp [encStr, pad32, natToBytesBE_length]

/-- C2: decoding the ABI-encoded message for the ordered schema
`(string kind, uint64 timestamp, string key, uint256 value)` returns exactly
the same four field values, for every kind and key, every 64-bit timestamp
and every non-negative value below `2 ^ 256`. -/
theorem abiDecode_abiEncode (kind key : GoStr) (ts value : Nat)
    (hkind : kind.length < 2 ^ 64) (hkey : key.length < 2 ^ 64)
    (hts : ts < 2 ^ 64) (hv : value < 2 ^ 256) :
    abiDecode (abiEncode kind key ts (Int.ofNat value)) =
      some (kind, ts, key, value) := by
  have hmod64 : ts % 2 ^ 64 = ts := Nat.mod_eq_of_lt hts
  have hu : u256 (Int.ofNat value) = value := by
    show (((value : Int)) % (2 ^ 256 : Int)).toNat = value
    rw [Int.emod_eq_of_lt (by positivity) (by exact_mod_cast hv)]
    simp
  have hb : abiEncode kind key ts (Int.ofNat value)
      = natToBytesBE 32 128 ++ (natToBytesBE 32 ts ++
        (natToBytesBE 32 (128 + (encStr kind).length) ++ (natToBytesBE 32 value ++
          (encStr kind ++ encStr key)))) := by
    simp only [abiEncode, hmod64, hu, List.append_assoc]
  rw [hb]
  set W0 := natToBytesBE 32 128 with hW0def
  set W1 := natToBytesBE 32 ts with hW1def
  set W2 := natToBytesBE 32 (128 + (encStr kind).length) with hW2def
  set W3 := natToBytesBE 32 value with hW3def
  set kE := encStr kind with hkEdef
  set keyE := encStr key with hkeyEdef
  set b := W0 ++ (W1 ++ (W2 ++ (W3 ++ (kE ++ keyE)))) with hbdef
  have lW0 : W0.length = 32 := natToBytesBE_length _ _
  have lW1 : W1.length = 32 := natToBytesBE_length _ _
  have lW2 : W2.length = 32 := natToBytesBE_length _ _
  have lW3 : W3.length = 32 := natToBytesBE_length _ _
  have lkE : kE.length = 32 + (kind.length + (32 - kind.length % 32) % 32) := by
    rw [hkEdef]
    exact encStr_length kind
  have lkeyE : keyE.length = 32 + (key.length + (32 - key.length % 32) % 32) := by
    rw [hkeyEdef]
    exact encStr_length key
  have hblen : b.length = 128 + (kE.length + keyE.length) := by
    rw [hbdef]
    simp only [List.length_append, lW0, lW1, lW2, lW3]
    omega
  have h0 : readWord b 0 = some W0 := by
    rw [readWord, if_pos (by omega), List.drop_zero, hbdef, List.take_left' lW0]
  have h32 : readWord b 32 = some W1 := by
    rw [readWord, if_pos (by omega), hbdef, List.drop_left' lW0,
      List.take_left' lW1]
  have h64 : readWord b 64 = some W2 := by
    rw [readWord, if_pos (by omega), hbdef, ← List.append_assoc,
      List.drop_left' (show (W0 ++ W1).length = 64 by simp [lW0, lW1]),
      List.take_left' lW2]
  have h96 : readWord b 96 = some W3 := by
    rw [readWord, if_pos (by omega), hbdef, ← List.append_assoc,
      ← List.append_assoc,
      List.drop_left' (show ((W0 ++ W1) ++ W2).length = 96 by
        simp [lW0, lW1, lW2]),
      List.take_left' lW3]
  have hbkind : b = (W0 ++ (W1 ++ (W2 ++ W3))) ++ (natToBytesBE 32 kind.length ++
      (kind ++ (List.replicate ((32 - kind.length % 32) % 32) 0 ++ keyE))) := by
    rw [hbdef, hkEdef]
    simp [encStr, pad32, List.append_assoc]
  have hdrop128 : b.drop 128 = natToBytesBE 32 kind.length ++
      (kind ++ (List.replicate ((32 - kind.length % 32) % 32) 0 ++ keyE)) := by
    rw [hbkind]
    exact List.drop_left' (by simp [lW0, lW1, lW2, lW3])
  have hlenk : natFromBytesBE ((b.drop 128).take 32) = kind.length := by
    rw [hdrop128, List.take_left' (natToBytesBE_length 32 _), natFromBytesBE_toBE]
    exact Nat.mod_eq_of_lt (lt_trans hkind (by norm_num))
  have hdrop160 : b.drop (128 + 32) = kind ++
      (List.replicate ((32 - kind.length % 32) % 32) 0 ++ keyE) := by
    rw [← List.drop_drop, hdrop128]
    exact List.drop_left' (natToBytesBE_length 32 _)
  have hkind128 : readGoString b 128 = some kind := by
    simp only [readGoString, hlenk, hblen]
    rw [if_pos (by omega), if_pos (by omega), hdrop160, List.take_left' rfl]
  have hbkey : b = ((W0 ++ (W1 ++ (W2 ++ W3))) ++ kE) ++
      (natToBytesBE 32 key.length ++
        (key ++ List.replicate ((32 - key.length % 32) % 32) 0)) := by
    rw [hbdef, hkeyEdef]
    simp [encStr, pad32, List.append_assoc]
  have hpreklen : (((W0 ++ (W1 ++ (W2 ++ W3))) ++ kE)).length = 128 + kE.length := by
    simp only [List.length_append, lW0, lW1, lW2, lW3]
  have hdropkE : b.drop (128 + kE.length) = natToBytesBE 32 key.length ++
      (key ++ List.replicate ((32 - key.length % 32) % 32) 0) := by
    rw [hbkey]
    exact List.drop_left' hpreklen
  have hlenkey : natFromBytesBE ((b.drop (128 + kE.length)).take 32) = key.length := by
    rw [hdropkE, List.take_left' (natToBytesBE_length 32 _), natFromBytesBE_toBE]
    exact Nat.mod_eq_of_lt (lt_trans hkey (by norm_num))
  have hdropkey2 : b.drop ((128 + kE.length) + 32) = key ++
      List.replicate ((32 - key.length % 32) % 32) 0 := by
    rw [← List.drop_drop, hdropkE]
    exact List.drop_left' (natToBytesBE_length 32 _)
  have hkey128 : readGoString b (128 + kE.length) = some key := by
    simp only [readGoString, hlenkey, hblen]
    rw [if_pos (by omega), if_pos (by omega), hdropkey2, List.take_left' rfl]
  have hts8 : natFromBytesBE (W1.drop 24) = ts := by
    have hsplit : natToBytesBE 32 ts
        = natToBytesBE 24 (ts / 256 ^ 8) ++ natToBytesBE 8 ts :=
      natToBytesBE_add 24 8 ts
    rw [hW1def, hsplit, List.drop_left' (natToBytesBE_length 24 _),
      natFromBytesBE_toBE]
    apply Nat.mod_eq_of_lt
    have hbig : (256 : Nat) ^ 8 = 2 ^ 64 := by norm_num
    rw [hbig]
    exact hts
  have hfW0 : natFromBytesBE W0 = 128 := by
    rw [hW0def, natFromBytesBE_toBE]
    exact Nat.mod_eq_of_lt (by norm_num)
  have hfW2 : natFromBytesBE W2 = 128 + kE.length := by
    rw [hW2def, natFromBytesBE_toBE]
    apply Nat.mod_eq_of_lt
    have hbig : (2 : Nat) ^ 64 + 224 < 256 ^ 32 := by norm_num
    omega
  have hfW3 : natFromBytesBE W3 = value := by
    rw [hW3def, natFromBytesBE_toBE]
    apply Nat.mod_eq_of_lt
    have hbig : (2 : Nat) ^ 256 = 256 ^ 32 := by norm_num
    rw [← hbig]
    exact hv
  simp only [abiDecode, h0, h32, h64, h96, hfW0, hfW2, hkind128, hkey128,
    hts8, hfW3]

/-- Witness for C2 at concrete inputs: kind `p`, key `a`, timestamp 1,
value 5. -/
theorem abiDecode_abiEncode_witness :
    abiDecode (abiEncode (strB "p") (strB "a") 1 (Int.ofNat 5)) =
      some (strB "p", 1, strB "a", 5) :=
  abiDecode_abiEncode (strB "p") (strB "a") 1 5 (by decide) (by decide)
    (by decide) (by norm_num)

/-! ## Claims C3, C4, C5 -/

/-- `normalizeSig` returns a value or panics; it has no error path. -/
theorem normalizeSig_ne_err (s : Bytes) (e : GoError) :
    normalizeSig s ≠ .err e := by
  simp only [normalizeSig]
  split <;> split <;> simp

/-- The per-entry recovery can fail only with a hex error or a recovery
error. -/
theorem recoverEntryAddr_err (c : EthCrypto) (s m : GoStr) (e : GoError)
    (h : recoverEntryAddr c s m = .err e) :
    e = .hexInvalid ∨ e = .sigRecover := by
  unfold recoverEntryAddr at h
  split at h
  · left
    cases h
    rfl
  · split at h
    · left
      cases h
      rfl
    · split at h
      case _ e' heq =>
        exact absurd heq (normalizeSig_ne_err _ e')
      case _ _ _ => cases h
      case _ sb heq =>
        dsimp only at h
        split at h
        · right
          cases h
          rfl
        · cases h

/-- The loop body can fail only with a hex, recovery or ABI-decode error,
never with the length-mismatch error. -/
theorem verifyStep_ne_lengthMismatch (c : EthCrypto) (m s : GoStr)
    (acc : List GoStr × List (GoStr × GoStr)) (a b : Nat) :
    verifyStep c m s acc ≠ .err (.lengthMismatch a b) := by
  unfold verifyStep
  split
  case _ e heq =>
    intro hcontra
    cases hcontra
    rcases recoverEntryAddr_err c s m _ heq with h | h <;> cases h
  case _ => simp
  case _ addr heq =>
    split
    · simp
    · split <;> simp

/-- The loop never returns the length-mismatch error. -/
theorem verifyLoop_ne_lengthMismatch (c : EthCrypto)
    (entries : List (GoStr × GoStr)) (acc : List GoStr × List (GoStr × GoStr))
    (a b : Nat) :
    verifyLoop c entries acc ≠ .err (.lengthMismatch a b) := by
  induction entries generalizing acc with
  | nil => simp [verifyLoop]
  | cons e rest ih =>
    obtain ⟨m, s⟩ := e
    simp only [verifyLoop]
    split
    case _ e' heq =>
      intro hcontra
      cases hcontra
      exact verifyStep_ne_lengthMismatch c m s acc a b heq
    case _ => simp
    case _ acc' heq => exact ih acc'

/-- C3: `Verify` returns the length-mismatch error exactly when the message
and signature counts differ, whatever the entry contents are (the check
precedes all per-entry hex decoding, hashing and recovery), and never
returns that error when the counts agree. -/
theorem verify_length_mismatch_iff (c : EthCrypto) (oresp : OracleResponse) :
    Verify c oresp =
        .err (.lengthMismatch oresp.Signatures.length oresp.Messages.length) ↔
      oresp.Messages.length ≠ oresp.Signatures.length := by
  constructor
  · intro h
    unfold Verify at h
    split at h
    · assumption
    · exact absurd h (verifyLoop_ne_lengthMismatch c _ _ _ _)
  · intro hne
    unfold Verify
    rw [if_pos hne]

/-- Success of the loop body does not depend on the accumulated state. -/
theorem verifyStep_isOk_indep (c : EthCrypto) (m s : GoStr)
    (acc acc' : List GoStr × List (GoStr × GoStr)) :
    (verifyStep c m s acc).isOk = (verifyStep c m s acc').isOk := by
  unfold verifyStep
  cases h1 : recoverEntryAddr c s m
  case ok addr =>
    simp only [h1]
    cases h2 : hexDecode (trimPrefix0x m)
    case none => simp [h2]
    case some msgBytes =>
      simp only [h2]
      cases h3 : abiDecode msgBytes
      case none => simp [h3]
      case some t =>
        obtain ⟨kind, ts, key, value⟩ := t
        simp [h3, GoResult.isOk]
  case err e => simp [h1]
  case panic msg => simp [h1]

/-- A failing entry anywhere in the batch makes the whole loop fail. -/
theorem verifyLoop_fail (c : EthCrypto) (m s : GoStr)
    (hfail : (verifyStep c m s ([], [])).isOk = false) :
    ∀ (entries : List (GoStr × GoStr)) (acc : List GoStr × List (GoStr × GoStr)),
      (m, s) ∈ entries → (verifyLoop c entries acc).isOk = false := by
  intro entries
  induction entries with
  | nil =>
    intro acc h
    simp at h
  | cons e rest ih =>
    intro acc hmem
    obtain ⟨mh, sh⟩ := e
    rcases List.mem_cons.mp hmem with heq | hmem2
    · cases heq
      have hst : (verifyStep c m s acc).isOk = false := by
        rw [verifyStep_isOk_indep c m s acc ([], [])]
        exact hfail
      simp only [verifyLoop]
      cases h1 : verifyStep c m s acc
      case ok acc' =>
        rw [h1] at hst
        simp [GoResult.isOk] at hst
      case err e => simp [h1, GoResult.isOk]
      case panic p => simp [h1, GoResult.isOk]
    · simp only [verifyLoop]
      cases h1 : verifyStep c mh sh acc
      case ok acc' =>
        simp only [h1]
        exact ih acc' hmem2
      case err e => simp [h1, GoResult.isOk]
      case panic p => simp [h1, GoResult.isOk]

/-- C4: whenever any per-entry step of the loop fails (hex decoding,
signature recovery or ABI decoding, at any index, however many earlier
entries succeeded), `Verify` does not return a success value: the result is
an `.err` or `.panic`, whose constructors carry no address list and no
key/value map, so no partial result escapes (the Go code returns
`nil, nil, err`). -/
theorem verify_no_partial_on_failure (c : EthCrypto) (oresp : OracleResponse)
    (m s : GoStr) (hmem : (m, s) ∈ oresp.Messages.zip oresp.Signatures)
    (hfail : (verifyStep c m s ([], [])).isOk = false) :
    (Verify c oresp).isOk = false := by
  unfold Verify
  split
  · simp [GoResult.isOk]
  · exact verifyLoop_fail c m s hfail _ _ hmem

/-- Witness for C4: under `toyCrypto`, a two-entry batch whose first entry
verifies and whose second message string is invalid hex yields no success
value. -/
theorem verify_no_partial_on_failure_witness :
    (Verify toyCrypto respBadHex).isOk = false :=
  verify_no_partial_on_failure toyCrypto respBadHex (strB "0xzz") dummySigStr
    (by decide) (by decide)

/-- C5 (code bug): on a response whose signature string hex-decodes to fewer
than 65 bytes, `Verify` reaches the unchecked write `sigBytes[64] -= 27` and
panics with an out-of-range index — a process-fatal Go runtime error, not a
typed error value. -/
theorem verify_short_signature_panics :
    Verify toyCrypto respShortSig = .panic panicIndexMsg := by
  decide

/-! ## Claims C6 and C7 -/

set_option maxRecDepth 8000 in
/-- C6 (counterexample): under `toyCrypto`, a payload whose single entry
verifies to the recovered address `0x0` is accepted by `UnmarshalVerify`
with the unrelated expected address `0xff` exactly as with the matching one:
the call succeeds with no error, returns only the parsed response (the
recovered addresses are printed and dropped, not returned), and its result
does not depend on the expected address, so the mismatch is not observable
to the caller. -/
theorem unmarshalVerify_mismatch_unobservable :
    UnmarshalVerify toyCrypto payloadPA (strB "0xff") = .ret (some parsedPA) none ∧
    UnmarshalVerify toyCrypto payloadPA (toyCrypto.pubToAddress 0) =
      .ret (some parsedPA) none ∧
    (toyCrypto.pubToAddress 0).map foldByte ≠ (strB "0xff").map foldByte := by
  refine ⟨by decide, by decide, by decide⟩

/-- C6 (amended): the `address` parameter of `UnmarshalVerify` is never
read — the address-equality check in the source is commented out and the
recovered addresses are only printed — so the returned value is identical
for every supplied expected address; neither an authentication error nor the
recovered addresses are surfaced to the caller. -/
theorem unmarshalVerify_address_independent (c : EthCrypto) (payload : Json)
    (a b : GoStr) :
    UnmarshalVerify c payload a = UnmarshalVerify c payload b := rfl

/-- Decodability of one string matches the schema predicate. -/
theorem jsonToGoStr_isSome (v : Json) : (jsonToGoStr v).isSome = jsonStrOk v := by
  cases v <;> rfl

/-- Decodability of a string array matches the element predicate. -/
theorem jsonStrElems_isSome (xs : List Json) :
    (jsonStrElems xs).isSome = xs.all jsonStrOk := by
  induction xs with
  | nil => rfl
  | cons x xs ih =>
    have hx := jsonToGoStr_isSome x
    simp only [jsonStrElems, List.all_cons]
    cases h1 : jsonToGoStr x <;> cases h2 : jsonStrElems xs <;>
      rw [h1] at hx <;> rw [h2] at ih <;> simp_all

/-- Decodability of a string-valued object matches the binding predicate. -/
theorem jsonStrPairs_isSome (fs : List (GoStr × Json)) :
    (jsonStrPairs fs).isSome = fs.all (fun kv => jsonStrOk kv.2) := by
  induction fs with
  | nil => rfl
  | cons kv fs ih =>
    have hx := jsonToGoStr_isSome kv.2
    simp only [jsonStrPairs, List.all_cons]
    cases h1 : jsonToGoStr kv.2 <;> cases h2 : jsonStrPairs fs <;>
      rw [h1] at hx <;> rw [h2] at ih <;> (simp_all; try exact ih)

/-- Decodability of a string list value matches the schema predicate. -/
theorem jsonToGoStrList_isSome (v : Json) :
    (jsonToGoStrList v).isSome = strListOk v := by
  cases v <;> first
    | rfl
    | exact jsonStrElems_isSome _

/-- Decodability of a string map value matches the schema predicate. -/
theorem jsonToGoStrMap_isSome (v : Json) :
    (jsonToGoStrMap v).isSome = strMapOk v := by
  cases v <;> first
    | rfl
    | exact jsonStrPairs_isSome _

/-- One binding assigns successfully exactly when it is schema-valid (the
target struct value is irrelevant). -/
theorem assignField_isSome (r : OracleResponse) (k : GoStr) (v : Json) :
    (assignField r k v).isSome = jsonFieldOk k v := by
  unfold assignField jsonFieldOk
  split_ifs <;>
    simp [Option.isSome_map', jsonToGoStr_isSome, jsonToGoStrList_isSome,
      jsonToGoStrMap_isSome]

/-- A binding list assigns successfully exactly when every binding is
schema-valid. -/
theorem unmarshalFields_isSome (fs : List (GoStr × Json)) (r : OracleResponse) :
    (unmarshalFields fs r).isSome = fs.all (fun kv => jsonFieldOk kv.1 kv.2) := by
  induction fs generalizing r with
  | nil => rfl
  | cons kv fs ih =>
    obtain ⟨k, v⟩ := kv
    have ha := assignField_isSome r k v
    simp only [unmarshalFields, List.all_cons]
    cases h1 : assignField r k v
    case none =>
      rw [h1] at ha
      simp_all
    case some r2 =>
      rw [h1] at ha
      simp_all [ih r2]

/-- C7 (amended): `Unmarshal` fails with the JSON type error exactly when
the payload value does not fit the `OracleResponse` schema (wrong top-level
type, or a present field of the wrong type); absent fields keep their zero
values and do not cause failure.  When parsing fails, `UnmarshalVerify`
returns a nil response with that error and performs no verification (the
result does not depend on the crypto backend or the address). -/
theorem unmarshal_fails_iff_schema_invalid (c : EthCrypto) (j : Json) (a : GoStr) :
    (Unmarshal j = .err .jsonType ↔ schemaOk j = false) ∧
    (schemaOk j = false → UnmarshalVerify c j a = .ret none (some .jsonType)) := by
  have hmain : Unmarshal j = .err .jsonType ↔ schemaOk j = false := by
    cases j <;> simp [Unmarshal, schemaOk]
    case obj fs =>
      have h := unmarshalFields_isSome fs zeroResp
      cases hu : unmarshalFields fs zeroResp
      case none =>
        rw [hu] at h
        simp_all
      case some r =>
        rw [hu] at h
        simp_all
  refine ⟨hmain, fun hbad => ?_⟩
  have he : Unmarshal j = .err .jsonType := hmain.mpr hbad
  unfold UnmarshalVerify
  rw [he]

/-- Witness for the amended C7: a numeric top-level payload fails parsing
and no verification is attempted. -/
theorem unmarshal_fails_iff_schema_invalid_witness :
    UnmarshalVerify toyCrypto (Json.num 3) [] = .ret none (some .jsonType) :=
  (unmarshal_fails_iff_schema_invalid toyCrypto (Json.num 3) []).2 (by rfl)

/-- C7 (counterexample): a payload with every required field missing — the
empty JSON object — parses successfully into the zero-valued response (Go's
`encoding/json` leaves absent fields at their zero values) and verification
then proceeds, so no malformed-payload error is returned, contrary to the
claim that a missing required field fails parsing. -/
theorem unmarshal_missing_fields_succeeds :
    Unmarshal (Json.obj []) = .ok zeroResp ∧
    UnmarshalVerify toyCrypto (Json.obj []) [] = .ret (some zeroResp) none := by
  exact ⟨rfl, rfl⟩

/-! ## Claim C8 -/

/-- Setting a key makes it resolve to the new value. -/
theorem mapGet_mapSet_self (kv : List (GoStr × GoStr)) (k v : GoStr) :
    mapGet (mapSet kv k v) k = some v := by
  induction kv with
  | nil => simp [mapSet, mapGet]
  | cons p rest ih =>
    obtain ⟨k1, v1⟩ := p
    by_cases h : k1 = k
    · simp [mapSet, mapGet, h]
    · simp [mapSet, mapGet, h, ih]

/-- Setting a key leaves every other key unchanged. -/
theorem mapGet_mapSet_ne (kv : List (GoStr × GoStr)) (k v k2 : GoStr)
    (h : k ≠ k2) :
    mapGet (mapSet kv k v) k2 = mapGet kv k2 := by
  induction kv with
  | nil => simp [mapSet, mapGet, h]
  | cons p rest ih =>
    obtain ⟨k1, v1⟩ := p
    by_cases h1 : k1 = k
    · subst h1
      simp [mapSet, mapGet, h]
    · by_cases h2 : k1 = k2
      · subst h2
        simp [mapSet, mapGet, h1]
      · simp [mapSet, mapGet, h1, h2, ih]

/-- The value key is the joined stem followed by the `.value` suffix. -/
theorem valMapKey_eq (kind key : GoStr) :
    valMapKey kind key = (kind ++ 46 :: key) ++ strB ".value" := by
  simp [valMapKey, List.append_assoc]

/-- The timestamp key is the joined stem followed by the `.timestamp`
suffix. -/
theorem tsMapKey_eq (kind key : GoStr) :
    tsMapKey kind key = (kind ++ 46 :: key) ++ strB ".timestamp" := by
  simp [tsMapKey, List.append_assoc]

/-- The value key of a tuple in terms of its joined stem. -/
theorem valMapKey_joined (t : GoStr × Nat × GoStr × Nat) :
    valMapKey t.1 t.2.2.1 = joinedKey t ++ strB ".value" := by
  rw [valMapKey_eq]
  rfl

/-- The timestamp key of a tuple in terms of its joined stem. -/
theorem tsMapKey_joined (t : GoStr × Nat × GoStr × Nat) :
    tsMapKey t.1 t.2.2.1 = joinedKey t ++ strB ".timestamp" := by
  rw [tsMapKey_eq]
  rfl

/-- Appending the same suffix preserves distinctness. -/
theorem suffix_append_ne (a b S : GoStr) (h : a ≠ b) : a ++ S ≠ b ++ S :=
  fun hc => h (List.append_cancel_right hc)

/-- A timestamp key never coincides with a value key, whatever the stems:
the two suffixes cannot align. -/
theorem ts_val_key_ne (a b : GoStr) :
    a ++ strB ".timestamp" ≠ b ++ strB ".value" := by
  intro h
  have l1 : (strB ".timestamp").length = 10 := rfl
  have l2 : (strB ".value").length = 6 := rfl
  have hlen : a.length + 10 = b.length + 6 := by
    have hl := congrArg List.length h
    simpa [List.length_append, l1, l2] using hl
  have hb : b.length = a.length + 4 := by omega
  have h2 := congrArg (fun l => l[a.length + 4]?) h
  simp only at h2
  rw [List.getElem?_append_right (by omega),
    List.getElem?_append_right (by omega)] at h2
  rw [show a.length + 4 - a.length = 4 by omega] at h2
  rw [hb] at h2
  rw [show a.length + 4 - (a.length + 4) = 0 by omega] at h2
  exact absurd h2 (by decide)

/-- Looking up the value key right after its own update. -/
theorem mapGet_kvUpd_val (kv : List (GoStr × GoStr))
    (t : GoStr × Nat × GoStr × Nat) :
    mapGet (kvUpd kv t) (valMapKey t.1 t.2.2.1) = some (decimalStr t.2.2.2) := by
  unfold kvUpd
  rw [mapGet_mapSet_ne _ _ _ _ ?hne, mapGet_mapSet_self]
  case hne =>
    rw [valMapKey_joined, tsMapKey_joined]
    exact ts_val_key_ne _ _

/-- Looking up the timestamp key right after its own update. -/
theorem mapGet_kvUpd_ts (kv : List (GoStr × GoStr))
    (t : GoStr × Nat × GoStr × Nat) :
    mapGet (kvUpd kv t) (tsMapKey t.1 t.2.2.1) = some (decimalStr t.2.1) :=
  mapGet_mapSet_self _ _ _

/-- A tuple update leaves unrelated keys unchanged. -/
theorem mapGet_kvUpd_other (kv : List (GoStr × GoStr))
    (t : GoStr × Nat × GoStr × Nat) (K : GoStr)
    (h1 : valMapKey t.1 t.2.2.1 ≠ K) (h2 : tsMapKey t.1 t.2.2.1 ≠ K) :
    mapGet (kvUpd kv t) K = mapGet kv K := by
  unfold kvUpd
  rw [mapGet_mapSet_ne _ _ _ _ h2, mapGet_mapSet_ne _ _ _ _ h1]

/-- A run of tuple updates leaves unrelated keys unchanged. -/
theorem mapGet_foldl_kvUpd (ts : List (GoStr × Nat × GoStr × Nat))
    (kv : List (GoStr × GoStr)) (K : GoStr)
    (h : ∀ t ∈ ts, valMapKey t.1 t.2.2.1 ≠ K ∧ tsMapKey t.1 t.2.2.1 ≠ K) :
    mapGet (ts.foldl kvUpd kv) K = mapGet kv K := by
  induction ts generalizing kv with
  | nil => rfl
  | cons t ts ih =>
    simp only [List.foldl_cons]
    rw [ih _ (fun t2 ht2 => h t2 (List.mem_cons_of_mem _ ht2))]
    exact mapGet_kvUpd_other kv t K (h t (List.mem_cons_self _ _)).1
      (h t (List.mem_cons_self _ _)).2

/-- A successful loop body updates the key/value map by exactly the decoded
tuple's two entries. -/
theorem verifyStep_ok_kv (c : EthCrypto) (m s : GoStr)
    (acc acc' : List GoStr × List (GoStr × GoStr))
    (t : GoStr × Nat × GoStr × Nat)
    (hok : verifyStep c m s acc = .ok acc') (ht : tupleOf m = some t) :
    acc'.2 = kvUpd acc.2 t := by
  obtain ⟨kind, ts, key, value⟩ := t
  unfold verifyStep at hok
  cases hr : recoverEntryAddr c s m
  case err e => simp [hr] at hok
  case panic p => simp [hr] at hok
  case ok addr =>
    cases hmb : hexDecode (trimPrefix0x m)
    case none => simp [tupleOf, hmb] at ht
    case some mb =>
      have hab : abiDecode mb = some (kind, ts, key, value) := by
        simpa [tupleOf, hmb] using ht
      simp only [hr, hmb, hab] at hok
      cases hok
      rfl

/-- A successful loop run computes the key/value map as the left fold of the
tuple updates over the decoded messages. -/
theorem verifyLoop_ok_kv (c : EthCrypto) :
    ∀ (entries : List (GoStr × GoStr)) (ts : List (GoStr × Nat × GoStr × Nat))
      (acc res : List GoStr × List (GoStr × GoStr)),
      verifyLoop c entries acc = .ok res →
      entries.map (fun e => tupleOf e.1) = ts.map some →
      res.2 = ts.foldl kvUpd acc.2 := by
  intro entries
  induction entries with
  | nil =>
    intro ts acc res hok hdec
    cases ts with
    | nil =>
      cases hok
      rfl
    | cons t ts2 => simp at hdec
  | cons e rest ih =>
    intro ts acc res hok hdec
    obtain ⟨m, s⟩ := e
    cases ts with
    | nil => simp at hdec
    | cons t ts2 =>
      simp only [List.map_cons, List.cons.injEq] at hdec
      obtain ⟨h1, h2⟩ := hdec
      simp only [verifyLoop] at hok
      cases hs : verifyStep c m s acc
      case err e2 => simp [hs] at hok
      case panic p => simp [hs] at hok
      case ok acc2 =>
        simp only [hs] at hok
        have hkv := verifyStep_ok_kv c m s acc acc2 t hs h1
        have hrest := ih ts2 acc2 res hok h2
        rw [hrest, hkv]
        rfl

/-- C8 (amended): for a batch whose messages all hex- and ABI-decode, the
key/value map holds, for each decoded tuple with no later tuple sharing its
derived stem `"{kind}.{key}"`, the entry `"{kind}.{key}.value"` mapped to the
decimal value and `"{kind}.{key}.timestamp"` mapped to the decimal
timestamp; a later tuple with the same derived stem (in particular one with
the same `(kind, key)` pair) overwrites the earlier entries. -/
theorem verify_keyvalues (c : EthCrypto) (oresp : OracleResponse)
    (ts : List (GoStr × Nat × GoStr × Nat)) (addrs : List GoStr)
    (kv : List (GoStr × GoStr))
    (hok : Verify c oresp = .ok (addrs, kv))
    (hdec : oresp.Messages.map tupleOf = ts.map some)
    (i : Nat) (hi : i < ts.length)
    (hlast : ∀ j, j < ts.length → i < j →
      joinedKey (ts.getD j dTuple) ≠ joinedKey (ts.getD i dTuple)) :
    mapGet kv (valMapKey (ts.getD i dTuple).1 (ts.getD i dTuple).2.2.1)
        = some (decimalStr (ts.getD i dTuple).2.2.2) ∧
    mapGet kv (tsMapKey (ts.getD i dTuple).1 (ts.getD i dTuple).2.2.1)
        = some (decimalStr (ts.getD i dTuple).2.1) := by
  unfold Verify at hok
  split at hok
  case isTrue => simp at hok
  case isFalse hlen =>
    have hlen2 : oresp.Messages.length = oresp.Signatures.length := by omega
    have hzip : (oresp.Messages.zip oresp.Signatures).map (fun e => tupleOf e.1)
        = ts.map some := by
      rw [show (fun (e : GoStr × GoStr) => tupleOf e.1)
          = tupleOf ∘ Prod.fst from rfl]
      rw [← List.map_map, List.map_fst_zip _ _ (le_of_eq hlen2)]
      exact hdec
    have hkv : kv = ts.foldl kvUpd [] :=
      verifyLoop_ok_kv c (oresp.Messages.zip oresp.Signatures) ts ([], [])
        (addrs, kv) hok hzip
    rw [hkv]
    set t := ts.getD i dTuple with htdef
    have htakei : ts.take (i + 1) = ts.take i ++ [t] := by
      rw [List.take_succ, List.getElem?_eq_getElem hi]
      have hti : t = ts[i] := by
        rw [htdef]
        exact List.getD_eq_getElem ts dTuple hi
      rw [hti]
      rfl
    have hfold : ts.foldl kvUpd [] =
        (ts.drop (i + 1)).foldl kvUpd (kvUpd ((ts.take i).foldl kvUpd []) t) := by
      conv_lhs => rw [← List.take_append_drop (i + 1) ts, htakei]
      rw [List.foldl_append, List.foldl_append]
      rfl
    rw [hfold]
    have hdisj : ∀ t2 ∈ ts.drop (i + 1), joinedKey t2 ≠ joinedKey t := by
      intro t2 ht2
      obtain ⟨j, hj, hjt⟩ := List.mem_iff_getElem.mp ht2
      have hlendrop := List.length_drop (i + 1) ts
      have hj2 : (i + 1) + j < ts.length := by omega
      have hidx : ts.getD ((i + 1) + j) dTuple = t2 := by
        rw [List.getD_eq_getElem _ _ hj2, ← List.getElem_drop ts]
        exact hjt
      rw [← hidx, htdef]
      exact hlast ((i + 1) + j) hj2 (by omega)
    constructor
    · rw [mapGet_foldl_kvUpd _ _ _ ?hpre1]
      · exact mapGet_kvUpd_val _ _
      case hpre1 =>
        intro t2 ht2
        refine ⟨?_, ?_⟩
        · rw [valMapKey_joined t2, valMapKey_joined t]
          exact suffix_append_ne _ _ _ (hdisj t2 ht2)
        · rw [tsMapKey_joined t2, valMapKey_joined t]
          exact ts_val_key_ne _ _
    · rw [mapGet_foldl_kvUpd _ _ _ ?hpre2]
      · exact mapGet_kvUpd_ts _ _
      case hpre2 =>
        intro t2 ht2
        refine ⟨?_, ?_⟩
        · rw [valMapKey_joined t2, tsMapKey_joined t]
          exact fun hc => ts_val_key_ne (joinedKey t) (joinedKey t2) hc.symm
        · rw [tsMapKey_joined t2, tsMapKey_joined t]
          exact suffix_append_ne _ _ _ (hdisj t2 ht2)

set_option maxRecDepth 8000 in
/-- Witness for the amended C8: a two-message batch with distinct stems
`p.a` and `p.b` populates all four entries; the lookup for the first tuple
follows from the theorem at index 0. -/
theorem verify_keyvalues_witness :
    mapGet [(strB "p.a.value", strB "5"), (strB "p.a.timestamp", strB "1"),
        (strB "p.b.value", strB "6"), (strB "p.b.timestamp", strB "2")]
      (valMapKey (tuplesTwoKeys.getD 0 dTuple).1
        (tuplesTwoKeys.getD 0 dTuple).2.2.1)
        = some (decimalStr (tuplesTwoKeys.getD 0 dTuple).2.2.2) ∧
    mapGet [(strB "p.a.value", strB "5"), (strB "p.a.timestamp", strB "1"),
        (strB "p.b.value", strB "6"), (strB "p.b.timestamp", strB "2")]
      (tsMapKey (tuplesTwoKeys.getD 0 dTuple).1
        (tuplesTwoKeys.getD 0 dTuple).2.2.1)
        = some (decimalStr (tuplesTwoKeys.getD 0 dTuple).2.1) :=
  verify_keyvalues toyCrypto respTwoKeys tuplesTwoKeys [strB "0x0"]
    [(strB "p.a.value", strB "5"), (strB "p.a.timestamp", strB "1"),
      (strB "p.b.value", strB "6"), (strB "p.b.timestamp", strB "2")]
    (by decide) (by decide) 0 (by decide) (by decide)

set_option maxRecDepth 8000 in
/-- C8 (counterexample): two messages with distinct `(kind, key)` pairs —
`("a.b", "c")` and `("a", "b.c")` — do not each contribute their own
entries: the dots make both derive the same map keys `a.b.c.value` and
`a.b.c.timestamp`, so the later message (value 9, timestamp 2) silently
overwrites the earlier one (value 7, timestamp 1) and the final map has only
two entries. -/
theorem verify_dot_collision :
    Verify toyCrypto respDotCollision =
      .ok ([strB "0x0"],
        [(strB "a.b.c.value", strB "9"), (strB "a.b.c.timestamp", strB "2")]) := by
  decide

/-! ## Claims C9 and C10 -/

/-- A successful build loop appends exactly the per-price pairs. -/
theorem intoLoop_ok (c : EthCrypto) (k : Nat) :
    ∀ (ps : List OraclePrice) (msgs sigs M S : List GoStr),
      intoLoop c k ps msgs sigs = .ok (M, S) →
      ∃ prs, buildPairs c k ps = some prs ∧
        M = msgs ++ prs.map Prod.fst ∧ S = sigs ++ prs.map Prod.snd := by
  intro ps
  induction ps with
  | nil =>
    intro msgs sigs M S hok
    cases hok
    exact ⟨[], rfl, by simp, by simp⟩
  | cons p ps ih =>
    intro msgs sigs M S hok
    simp only [intoLoop] at hok
    cases hp : parseDec p.Price
    case none => simp [hp, makeMessage] at hok
    case some v =>
      simp only [hp, makeMessage] at hok
      obtain ⟨prs, hbp, hM, hS⟩ := ih _ _ _ _ hok
      refine ⟨(hex0x (abiEncode pricesKind p.Asset p.Timestamp v),
        hex0x (signMessage c (abiEncode pricesKind p.Asset p.Timestamp v) k))
          :: prs, ?_, ?_, ?_⟩
      · simp [buildPairs, buildPair, hp, hbp]
      · rw [hM]
        simp
      · rw [hS]
        simp

/-- The pair list of a successful build has one pair per price. -/
theorem buildPairs_length (c : EthCrypto) (k : Nat) :
    ∀ (ps : List OraclePrice) (prs : List (GoStr × GoStr)),
      buildPairs c k ps = some prs → prs.length = ps.length := by
  intro ps
  induction ps with
  | nil =>
    intro prs h
    cases h
    rfl
  | cons p ps ih =>
    intro prs h
    simp only [buildPairs] at h
    cases h1 : buildPair c k p <;> rw [h1] at h
    · cases h
    · cases h2 : buildPairs c k ps <;> rw [h2] at h
      · cases h
      · cases h
        simp [ih _ h2]

/-- Pointwise content of the pair list of a successful build. -/
theorem buildPairs_getD (c : EthCrypto) (k : Nat) :
    ∀ (ps : List OraclePrice) (prs : List (GoStr × GoStr)),
      buildPairs c k ps = some prs →
      ∀ i, i < ps.length →
        buildPair c k (ps.getD i dPrice) = some (prs.getD i dPair) := by
  intro ps
  induction ps with
  | nil =>
    intro prs h i hi
    simp at hi
  | cons p ps ih =>
    intro prs h i hi
    simp only [buildPairs] at h
    cases h1 : buildPair c k p <;> rw [h1] at h
    · cases h
    · cases h2 : buildPairs c k ps <;> rw [h2] at h
      · cases h
      · cases h
        cases i with
        | zero => exact h1
        | succ i =>
          simp only [List.length_cons, Nat.succ_lt_succ_iff] at hi
          exact ih _ h2 i hi

/-- Every code emitted by the lowercase hex digit encoder is a decimal digit
or a lowercase `a`–`f`. -/
theorem hexDigitCode_range (x : Nat) (h : x < 16) :
    (48 ≤ hexDigitCode x ∧ hexDigitCode x ≤ 57) ∨
      (97 ≤ hexDigitCode x ∧ hexDigitCode x ≤ 102) := by
  unfold hexDigitCode
  split <;> omega

/-- Every character of an encoded byte string is a lowercase hex digit. -/
theorem hexEncode_lower (bs : Bytes) (h : ∀ b ∈ bs, b < 256) :
    ∀ cc ∈ hexEncode bs, (48 ≤ cc ∧ cc ≤ 57) ∨ (97 ≤ cc ∧ cc ≤ 102) := by
  induction bs with
  | nil => simp [hexEncode]
  | cons b rest ih =>
    intro cc hcc
    have hb : b < 256 := h b (by simp)
    simp only [hexEncode, List.mem_cons] at hcc
    rcases hcc with rfl | hcc
    · exact hexDigitCode_range _ (by omega)
    rcases hcc with rfl | hcc
    · exact hexDigitCode_range _ (Nat.mod_lt _ (by norm_num))
    · exact ih (fun x hx => h x (by simp [hx])) cc hcc

/-- A `hex0x` rendering of genuine bytes is a `0x`-prefixed lowercase hex
string. -/
theorem isHex0xLower_hex0x (bs : Bytes) (h : ∀ b ∈ bs, b < 256) :
    isHex0xLower (hex0x bs) = true := by
  simp only [isHex0xLower, hex0x, List.all_eq_true]
  intro c hc
  have := hexEncode_lower bs h c hc
  simpa using this

/-- All bytes of an ABI encoding are genuine bytes when the two strings
consist of bytes. -/
theorem abiEncode_bytes_lt (kind key : GoStr) (ts : Nat) (v : Int)
    (hkind : ∀ b ∈ kind, b < 256) (hkey : ∀ b ∈ key, b < 256) :
    ∀ b ∈ abiEncode kind key ts v, b < 256 := by
  intro b hb
  simp only [abiEncode, encStr, pad32, List.mem_append] at hb
  rcases hb with ((((hb | hb) | hb) | hb) | (hb | (hb | hb))) | (hb | (hb | hb)) <;>
    first
      | exact natToBytesBE_lt _ _ b hb
      | exact hkind b hb
      | exact hkey b hb
      | (rw [List.eq_of_mem_replicate hb]; norm_num)

/-- The kind string `"prices"` consists of bytes. -/
theorem pricesKind_bytes : ∀ b ∈ pricesKind, b < 256 := by decide

/-- C9: for every request and key on which `IntoOpenOracle` succeeds, the
produced response has as many messages and signatures as there are prices,
entry `i` of the messages is the `0x`-hex of the ABI encoding of price `i`
(kind `prices`, the price's asset, timestamp and parsed value) and entry `i`
of the signatures is the `0x`-hex of the signature over exactly those
message bytes, and every entry of both arrays is a `0x`-prefixed lowercase
hex string. -/
theorem intoOpenOracle_invariants (c : EthCrypto) (oreq : OracleRequest)
    (k : Nat) (oresp : OracleResponse)
    (hok : IntoOpenOracle c oreq k = .ok oresp)
    (hassets : ∀ p ∈ oreq.Prices, ∀ b ∈ p.Asset, b < 256) :
    oresp.Messages.length = oreq.Prices.length ∧
    oresp.Signatures.length = oreq.Prices.length ∧
    (∀ i, i < oreq.Prices.length →
      ∃ v, parseDec (oreq.Prices.getD i dPrice).Price = some v ∧
        oresp.Messages.getD i [] =
          hex0x (abiEncode pricesKind (oreq.Prices.getD i dPrice).Asset
            (oreq.Prices.getD i dPrice).Timestamp v) ∧
        oresp.Signatures.getD i [] =
          hex0x (signMessage c
            (abiEncode pricesKind (oreq.Prices.getD i dPrice).Asset
              (oreq.Prices.getD i dPrice).Timestamp v) k)) ∧
    (∀ m ∈ oresp.Messages, isHex0xLower m = true) ∧
    (∀ s2 ∈ oresp.Signatures, isHex0xLower s2 = true) := by
  unfold IntoOpenOracle at hok
  cases hloop : intoLoop c k oreq.Prices [] [] <;> rw [hloop] at hok
  case err e => cases hok
  case panic p => cases hok
  case ok MS =>
    obtain ⟨M, S⟩ := MS
    cases hok
    obtain ⟨prs, hbp, hM, hS⟩ := intoLoop_ok c k _ [] [] M S hloop
    simp only [List.nil_append] at hM hS
    have hlen : prs.length = oreq.Prices.length := buildPairs_length c k _ _ hbp
    have hidx : ∀ i, i < oreq.Prices.length →
        ∃ v, parseDec (oreq.Prices.getD i dPrice).Price = some v ∧
          M.getD i [] =
            hex0x (abiEncode pricesKind (oreq.Prices.getD i dPrice).Asset
              (oreq.Prices.getD i dPrice).Timestamp v) ∧
          S.getD i [] =
            hex0x (signMessage c
              (abiEncode pricesKind (oreq.Prices.getD i dPrice).Asset
                (oreq.Prices.getD i dPrice).Timestamp v) k) := by
      intro i hi
      have hpair := buildPairs_getD c k _ _ hbp i hi
      have hiprs : i < prs.length := by omega
      unfold buildPair at hpair
      cases hp : parseDec (oreq.Prices.getD i dPrice).Price <;> rw [hp] at hpair
      · cases hpair
      case some v =>
        simp only [Option.map_some'] at hpair
        have hpair2 := Option.some.inj hpair
        refine ⟨v, rfl, ?_, ?_⟩
        · rw [hM, List.getD_eq_getElem _ _ (by simpa [hlen] using hi),
            List.getElem_map, ← List.getD_eq_getElem prs dPair hiprs,
            ← hpair2]
        · rw [hS, List.getD_eq_getElem _ _ (by simpa [hlen] using hi),
            List.getElem_map, ← List.getD_eq_getElem prs dPair hiprs,
            ← hpair2]
    refine ⟨by simp [hM, hlen], by simp [hS, hlen], hidx, ?_, ?_⟩
    · intro m hm
      obtain ⟨i, hilt, hget⟩ := List.mem_iff_getElem.mp hm
      have hiM : i < oreq.Prices.length := by
        rw [hM] at hilt
        simp only [List.length_map] at hilt
        omega
      obtain ⟨v, _, hmv, _⟩ := hidx i hiM
      have hm2 : m = M.getD i [] := by
        rw [List.getD_eq_getElem _ _ (by rw [hM]; simpa [hlen] using hiM), hget]
      rw [hm2, hmv]
      apply isHex0xLower_hex0x
      apply abiEncode_bytes_lt
      · exact pricesKind_bytes
      · apply hassets
        rw [List.getD_eq_getElem _ _ hiM]
        exact List.getElem_mem _
    · intro s2 hs2
      obtain ⟨i, hilt, hget⟩ := List.mem_iff_getElem.mp hs2
      have hiS : i < oreq.Prices.length := by
        rw [hS] at hilt
        simp only [List.length_map] at hilt
        omega
      obtain ⟨v, _, _, hsv⟩ := hidx i hiS
      have hs3 : s2 = S.getD i [] := by
        rw [List.getD_eq_getElem _ _ (by rw [hS]; simpa [hlen] using hiS), hget]
      rw [hs3, hsv]
      exact isHex0xLower_hex0x _ (signMessage_bytes c _ k)

set_option maxRecDepth 8000 in
/-- Witness for C9: one-price request under `toyCrypto` with key 3; the
produced response has exactly one message and one signature. -/
theorem intoOpenOracle_invariants_witness :
    respGood.Messages.length = reqGood.Prices.length ∧
    respGood.Signatures.length = reqGood.Prices.length :=
  ⟨(intoOpenOracle_invariants toyCrypto reqGood 3 respGood (by decide)
      (by decide)).1,
   (intoOpenOracle_invariants toyCrypto reqGood 3 respGood (by decide)
      (by decide)).2.1⟩

/-- A price list containing an unparsable price makes the build loop panic
inside the ABI encoder (nil `*big.Int` dereference), never a typed error. -/
theorem intoLoop_panic_of_badprice (c : EthCrypto) (k : Nat) :
    ∀ (ps : List OraclePrice) (msgs sigs : List GoStr),
      (∃ p ∈ ps, parseDec p.Price = none) →
      intoLoop c k ps msgs sigs = .panic panicNilMsg := by
  intro ps
  induction ps with
  | nil =>
    rintro msgs sigs ⟨p, hp, _⟩
    simp at hp
  | cons q ps ih =>
    rintro msgs sigs ⟨p, hp, hnone⟩
    rcases List.mem_cons.mp hp with rfl | hp2
    · simp [intoLoop, hnone, makeMessage]
    · cases hq : parseDec q.Price
      case none => simp [intoLoop, hq, makeMessage]
      case some v =>
        simp only [intoLoop, hq, makeMessage]
        exact ih _ _ ⟨p, hp2, hnone⟩

/-- C10: when a request contains a price whose string is not parsed by
`big.Int.SetString` (the parse error is discarded by `price, _ := ...`),
`IntoOpenOracle` returns no typed error for the failure: the nil parse
result flows into the ABI encoder, which dereferences it — the call ends in
the nil-pointer panic, never in an error value reporting the bad price. -/
theorem intoOpenOracle_ignores_parse_failure (c : EthCrypto)
    (oreq : OracleRequest) (k : Nat) (p : OraclePrice)
    (hmem : p ∈ oreq.Prices) (hbad : parseDec p.Price = none) :
    IntoOpenOracle c oreq k = .panic panicNilMsg := by
  unfold IntoOpenOracle
  rw [intoLoop_panic_of_badprice c k oreq.Prices [] [] ⟨p, hmem, hbad⟩]

/-- Witness for C10: the price string `abc` panics the build under
`toyCrypto`. -/
theorem intoOpenOracle_ignores_parse_failure_witness :
    IntoOpenOracle toyCrypto reqBadPrice 3 = .panic panicNilMsg :=
  intoOpenOracle_ignores_parse_failure toyCrypto reqBadPrice 3
    ⟨strB "BTC", strB "abc", 1⟩ (by decide) (by decide)

end OpenOracle
